import Mathlib

/-!
Shallow embedding of `adaptiveumbrella/wham2d.py` (class `WHAM2DRunner`).

Numeric values carried by solver output rows are modelled by `FVal`:
a finite rational, one of the two IEEE infinities, or NaN — exactly the
distinctions the Python code observes.  Cell coordinates and lambda
steps are exact rationals.  Collaborators owned by the umbrella-runner
base class and by the operating system (the index-to-lambda conversion
`_get_lambdas_for_index`, the sampled-lambda enumeration
`_get_sampled_lambdas`, the sample grid `sample_list`, the file system
and the external wham-2d process) enter every definition as explicit
parameters, mirroring the spec's description of them as external
collaborators.
-/

namespace Wham2D

/-- A floating point value as far as `wham2d.py` inspects it: a finite
rational, one of the two infinities, or NaN. -/
inductive FVal where
  | fin (q : ℚ)
  | pinf
  | ninf
  | nan
deriving DecidableEq

/-- One row of the wham-2d output table, columns `x y e pro`
(see `load_wham_pmf`). -/
structure Row where
  x : FVal
  y : FVal
  e : FVal
  pro : FVal
deriving DecidableEq

/-- `np.inf` and `-np.inf` turned into NaN, as done columnwise by
`df.replace([np.inf, -np.inf], np.nan)` (wham2d.py line 106). -/
def replaceInfV : FVal → FVal
  | .pinf => .nan
  | .ninf => .nan
  | v => v

/-- The replacement of line 106 applied to one row; note it touches every
column of the frame, not just `e`. -/
def replaceInfRow (r : Row) : Row :=
  ⟨replaceInfV r.x, replaceInfV r.y, replaceInfV r.e, replaceInfV r.pro⟩

def isFiniteV : FVal → Bool
  | .fin _ => true
  | _ => false

def isInfV : FVal → Bool
  | .pinf => true
  | .ninf => true
  | _ => false

/-- IEEE-style equality as computed by the pandas `==` comparisons on
float columns: NaN compares unequal to everything, itself included. -/
def fvalEqSem : FVal → FVal → Bool
  | .fin p, .fin q => decide (p = q)
  | .pinf, .pinf => true
  | .ninf, .ninf => true
  | _, _ => false

/-- `load_wham_pmf` after the CSV parse (wham2d.py lines 101-107):
replace the infinities by NaN in every column, then drop the rows whose
`e` is NaN (`dropna(subset=['e'], how='all')` with a single-column
subset drops a row exactly when its `e` is NaN). -/
def load_wham_pmf (rows : List Row) : List Row :=
  (rows.map replaceInfRow).filter (fun r => decide (r.e ≠ FVal.nan))

/-- The open rectangular tolerance window of `update_pmf` (line 115):
`(abs(wham_pmf.x-lambdax) < self.cvs[0][2]) & (abs(wham_pmf.y-lambday) < self.cvs[1][2])`.
A float comparison involving NaN or an infinity on the left and a finite
step on the right is false, hence the catch-all branch. -/
def inWindow (sx sy lx ly : ℚ) (r : Row) : Bool :=
  match r.x, r.y with
  | .fin qx, .fin qy => decide (|qx - lx| < sx) && decide (|qy - ly| < sy)
  | _, _ => false

/-- `reduced` of wham2d.py line 115: the rows inside the open window,
in their original order (a pandas boolean-mask filter keeps order). -/
def reducedRows (sx sy lx ly : ℚ) (rows : List Row) : List Row :=
  rows.filter (inWindow sx sy lx ly)

/-- Squared Euclidean distance from the cell lambda to a row, standing in
for `np.linalg.norm((lambdax-row['x'], lambday-row['y']))` of line 119:
all equality and minimum comparisons between exact distances agree with
the comparisons between their squares.  Only rows inside the window are
ever measured, and those have finite coordinates (the catch-all branch
is never reached on them). -/
def distSq (lx ly : ℚ) (r : Row) : ℚ :=
  match r.x, r.y with
  | .fin qx, .fin qy => (lx - qx) ^ 2 + (ly - qy) ^ 2
  | _, _ => 0

/-- Minimum of a list, `none` on the empty list (pandas `.min()`). -/
def listMin {α : Type} [LinearOrder α] : List α → Option α
  | [] => none
  | v :: vs => some (vs.foldl min v)

/-- `r` attains the least distance to the cell lambda among the rows of
`R`. -/
def isGlobalMin (lx ly : ℚ) (R : List Row) (r : Row) : Bool :=
  R.all (fun r2 => decide (distSq lx ly r ≤ distSq lx ly r2))

/-- Body of the double loop of `update_pmf` (lines 114-122) for one cell
whose lambda coordinate is `(lx, ly)`: filter to the window, set the
cell to positive infinity when nothing matches, otherwise take the rows
at minimal distance (`min`), re-filter the window rows by the first
minimal row's own `(x, y)` (`min_row`) and assign the first such row's
`e` (`min_row.e.iloc[0]`).  The inner `none` branches model
`.iloc[0]` on an empty frame and are never reached: the minimum of a
nonempty frame is attained. -/
def update_cell (sx sy lx ly : ℚ) (wham_pmf : List Row) : FVal :=
  match listMin ((reducedRows sx sy lx ly wham_pmf).map (distSq lx ly)) with
  | none => FVal.pinf
  | some dmin =>
    match ((reducedRows sx sy lx ly wham_pmf).filter
        (fun r => decide (distSq lx ly r = dmin))).head? with
    | none => FVal.pinf
    | some m0 =>
      match ((reducedRows sx sy lx ly wham_pmf).filter
          (fun r => fvalEqSem r.x m0.x && fvalEqSem r.y m0.y)).head? with
      | none => FVal.pinf
      | some mr => mr.e

/-- `update_pmf` (lines 109-122): every cell `(i, j)` of the
`n0 × n1` pmf grid is rewritten from the wham output rows; cells outside
the grid keep the previous pmf value.  `lam` is the collaborating
`_get_lambdas_for_index`, `sx`/`sy` are `cvs[0][2]`/`cvs[1][2]`. -/
def update_pmf (n0 n1 : ℕ) (lam : ℕ × ℕ → ℚ × ℚ) (sx sy : ℚ)
    (wham_pmf : List Row) (pmf : ℕ → ℕ → FVal) : ℕ → ℕ → FVal :=
  fun i j =>
    if i < n0 ∧ j < n1 then
      update_cell sx sy (lam (i, j)).1 (lam (i, j)).2 wham_pmf
    else pmf i j

/-- Indices of the nonzero cells of the sample grid in row-major order,
i.e. the pairs zipped from `np.nonzero(self.sample_list)` (line 54). -/
def nonzeroIndices (n0 n1 : ℕ) (s : ℕ → ℕ → ℕ) : List (ℕ × ℕ) :=
  ((List.range n0).flatMap (fun i => (List.range n1).map (fun j => (i, j)))).filter
    (fun p => decide (s p.1 p.2 ≠ 0))

/-- `get_wham_borders` (lines 51-66).  `none` models the `ValueError`
numpy raises from `nonzero[0].min()` on an all-zero sample grid (an
empty reduction has no identity); otherwise the flattened border array
`[lo_x - 2*sx, lo_y - 2*sy, hi_x + 2*sx, hi_y + 2*sy]` built from the
lambdas of the index-space bounding box corners. -/
def get_wham_borders (n0 n1 : ℕ) (s : ℕ → ℕ → ℕ)
    (lam : ℕ × ℕ → ℚ × ℚ) (sx sy : ℚ) : Option (ℚ × ℚ × ℚ × ℚ) :=
  match nonzeroIndices n0 n1 s with
  | [] => none
  | p :: ps =>
    some ((lam ((ps.map Prod.fst).foldl min p.1, (ps.map Prod.snd).foldl min p.2)).1 - 2 * sx,
      (lam ((ps.map Prod.fst).foldl min p.1, (ps.map Prod.snd).foldl min p.2)).2 - 2 * sy,
      (lam ((ps.map Prod.fst).foldl max p.1, (ps.map Prod.snd).foldl max p.2)).1 + 2 * sx,
      (lam ((ps.map Prod.fst).foldl max p.1, (ps.map Prod.snd).foldl max p.2)).2 + 2 * sy)

/-- One tab-separated line of the wham metadata manifest
(`<path>  <lambda_x> <lambda_y> <fc_x> <fc_y>`); the path is determined
by the lambda pair, so it is not repeated here. -/
structure MetaLine where
  lx : ℚ
  ly : ℚ
  fcx : ℚ
  fcy : ℚ
deriving DecidableEq

/-- `create_metadata_file` (lines 32-44).  `colvarExists` is the
collaborating per-window file-existence check.  The guard reproduces the
source literally: the `continue` that skips a window sits under
`if not os.path.exists(colvar_file) and self.verbose:`, so a missing
file is skipped only when `verbose` is set; with `verbose` unset the
line for the missing file is written. -/
def create_metadata_file (verbose : Bool) (colvarExists : ℚ × ℚ → Bool)
    (fcx fcy : ℚ) (sampled : List (ℚ × ℚ)) : List MetaLine :=
  sampled.filterMap (fun p =>
    if !colvarExists p && verbose then none
    else some ⟨p.1, p.2, fcx, fcy⟩)

/-- Outcome of `run_wham2d`: normal return, the `ValueError` propagating
out of `get_wham_borders`, or the `exit(1)` after a nonzero solver exit
code (the code printed on line 98 is carried). -/
inductive RunResult where
  | success
  | emptyData
  | fatal (code : ℤ)
deriving DecidableEq

/-- State observed around `run_wham2d`: its result, the set of existing
file paths, and how many times the external solver was launched. -/
structure RunOutcome where
  result : RunResult
  fs : List String
  solverCalls : ℕ
deriving DecidableEq

/-- `run_wham2d` (lines 68-99) over an explicit file system (the list of
existing paths) and an abstract external solver.  If the output file
already exists the function returns at once (lines 70-72), before
`get_wham_borders` is evaluated.  Otherwise the borders are computed
(`none` aborts with the empty-data error), the solver runs exactly once,
and a nonzero exit code is fatal, carrying the code. -/
def run_wham2d (solver : List String → ℤ × List String)
    (n0 n1 : ℕ) (s : ℕ → ℕ → ℕ) (lam : ℕ × ℕ → ℚ × ℚ) (sx sy : ℚ)
    (output_path : String) (fs : List String) (calls : ℕ) : RunOutcome :=
  if output_path ∈ fs then ⟨.success, fs, calls⟩
  else
    match get_wham_borders n0 n1 s lam sx sy with
    | none => ⟨.emptyData, fs, calls⟩
    | some _ =>
      if (solver fs).1 ≠ 0 then ⟨.fatal (solver fs).1, (solver fs).2, calls + 1⟩
      else ⟨.success, (solver fs).2, calls + 1⟩

/-- Result of `calculate_new_pmf`: the updated pmf grid on success, or
the error that aborted the pipeline (solver failure, empty sample grid,
or a missing output file at load time). -/
inductive PipeResult where
  | ok (pmf : ℕ → ℕ → FVal)
  | fatalExit (code : ℤ)
  | emptyDataError
  | missingOutput

/-- `calculate_new_pmf` (lines 124-131): write the metadata manifest,
run wham-2d, and on success load the output rows (`content` maps an
existing path to its parsed rows) and project them onto the pmf grid.
Any failure of `run_wham2d` aborts before loading and projection. -/
def calculate_new_pmf (verbose : Bool) (colvarExists : ℚ × ℚ → Bool)
    (fcx fcy : ℚ) (sampled : List (ℚ × ℚ))
    (solver : List String → ℤ × List String) (content : String → List Row)
    (n0 n1 : ℕ) (s : ℕ → ℕ → ℕ) (lam : ℕ × ℕ → ℚ × ℚ) (sx sy : ℚ)
    (output_path : String) (fs : List String) (calls : ℕ)
    (pmf : ℕ → ℕ → FVal) : PipeResult × List String × ℕ :=
  let _meta := create_metadata_file verbose colvarExists fcx fcy sampled
  let o := run_wham2d solver n0 n1 s lam sx sy output_path fs calls
  match o.result with
  | .fatal c => (.fatalExit c, o.fs, o.solverCalls)
  | .emptyData => (.emptyDataError, o.fs, o.solverCalls)
  | .success =>
    if output_path ∈ o.fs then
      (.ok (update_pmf n0 n1 lam sx sy (load_wham_pmf (content output_path)) pmf),
        o.fs, o.solverCalls)
    else (.missingOutput, o.fs, o.solverCalls)

/-! ### Helper lemmas -/

theorem bool_eq_of_iff {a b : Bool} (h : a = true ↔ b = true) : a = b := by
  cases a <;> cases b <;> simp_all

theorem foldl_min_le_init {α : Type} [LinearOrder α] (l : List α) (a : α) :
    l.foldl min a ≤ a := by
  induction l generalizing a with
  | nil => simp
  | cons b l ih =>
    rw [List.foldl_cons]
    exact le_trans (ih (min a b)) (min_le_left a b)

theorem foldl_min_le_mem {α : Type} [LinearOrder α] (l : List α) (a x : α)
    (hx : x ∈ l) : l.foldl min a ≤ x := by
  induction l generalizing a with
  | nil => cases hx
  | cons b l ih =>
    rw [List.foldl_cons]
    rcases List.mem_cons.mp hx with h | h
    · subst h
      exact le_trans (foldl_min_le_init l (min a x)) (min_le_right a x)
    · exact ih (min a b) h

theorem foldl_min_eq_init_or_mem {α : Type} [LinearOrder α] (l : List α) (a : α) :
    l.foldl min a = a ∨ l.foldl min a ∈ l := by
  induction l generalizing a with
  | nil => exact Or.inl rfl
  | cons b l ih =>
    rw [List.foldl_cons]
    rcases ih (min a b) with h | h
    · rcases min_choice a b with h2 | h2
      · exact Or.inl (h.trans h2)
      · exact Or.inr (List.mem_cons.mpr (Or.inl (h.trans h2)))
    · exact Or.inr (List.mem_cons.mpr (Or.inr h))

theorem foldl_max_init_le {α : Type} [LinearOrder α] (l : List α) (a : α) :
    a ≤ l.foldl max a := by
  induction l generalizing a with
  | nil => simp
  | cons b l ih =>
    rw [List.foldl_cons]
    exact le_trans (le_max_left a b) (ih (max a b))

theorem foldl_max_mem_le {α : Type} [LinearOrder α] (l : List α) (a x : α)
    (hx : x ∈ l) : x ≤ l.foldl max a := by
  induction l generalizing a with
  | nil => cases hx
  | cons b l ih =>
    rw [List.foldl_cons]
    rcases List.mem_cons.mp hx with h | h
    · subst h
      exact le_trans (le_max_right a x) (foldl_max_init_le l (max a x))
    · exact ih (max a b) h

theorem foldl_max_eq_init_or_mem {α : Type} [LinearOrder α] (l : List α) (a : α) :
    l.foldl max a = a ∨ l.foldl max a ∈ l := by
  induction l generalizing a with
  | nil => exact Or.inl rfl
  | cons b l ih =>
    rw [List.foldl_cons]
    rcases ih (max a b) with h | h
    · rcases max_choice a b with h2 | h2
      · exact Or.inl (h.trans h2)
      · exact Or.inr (List.mem_cons.mpr (Or.inl (h.trans h2)))
    · exact Or.inr (List.mem_cons.mpr (Or.inr h))

theorem listMin_le {α : Type} [LinearOrder α] {l : List α} {m : α}
    (h : listMin l = some m) : ∀ x ∈ l, m ≤ x := by
  cases l with
  | nil => cases h
  | cons v vs =>
    intro x hx
    simp only [listMin, Option.some.injEq] at h
    rcases List.mem_cons.mp hx with h2 | h2
    · subst h2
      rw [← h]
      exact foldl_min_le_init vs x
    · rw [← h]
      exact foldl_min_le_mem vs v x h2

theorem listMin_mem {α : Type} [LinearOrder α] {l : List α} {m : α}
    (h : listMin l = some m) : m ∈ l := by
  cases l with
  | nil => cases h
  | cons v vs =>
    simp only [listMin, Option.some.injEq] at h
    rcases foldl_min_eq_init_or_mem vs v with h2 | h2
    · rw [← h, h2]
      exact List.mem_cons_self v vs
    · rw [← h]
      exact List.mem_cons_of_mem v h2

theorem listMin_eq_none_iff {α : Type} [LinearOrder α] {l : List α} :
    listMin l = none ↔ l = [] := by
  cases l <;> simp [listMin]

theorem head?_filter_eq_find? {α : Type} (p : α → Bool) (l : List α) :
    (l.filter p).head? = l.find? p := by
  induction l with
  | nil => rfl
  | cons a l ih =>
    by_cases h : p a
    · rw [List.filter_cons_of_pos h, List.find?_cons_of_pos l h, List.head?_cons]
    · rw [List.filter_cons_of_neg h, List.find?_cons_of_neg l h, ih]

theorem find?_congr_pred {α : Type} (p q : α → Bool) (l : List α)
    (h : ∀ x ∈ l, p x = q x) : l.find? p = l.find? q := by
  induction l with
  | nil => rfl
  | cons a l ih =>
    have ha := h a (List.mem_cons_self a l)
    have ihl := ih (fun x hx => h x (List.mem_cons_of_mem a hx))
    by_cases hpa : p a
    · rw [List.find?_cons_of_pos l hpa, List.find?_cons_of_pos l (ha ▸ hpa)]
    · rw [List.find?_cons_of_neg l hpa, List.find?_cons_of_neg l (ha ▸ hpa), ihl]

theorem find?_eq_of_imp {α : Type} (p q : α → Bool) (l : List α) (a : α)
    (hfind : l.find? p = some a) (hqa : q a = true)
    (himp : ∀ x ∈ l, q x = true → p x = true) : l.find? q = some a := by
  induction l with
  | nil => cases hfind
  | cons b l ih =>
    by_cases hpb : p b
    · rw [List.find?_cons_of_pos l hpb] at hfind
      have hba : b = a := Option.some.inj hfind
      subst hba
      rw [List.find?_cons_of_pos l hqa]
    · have hqb : ¬ q b = true :=
        fun hq => hpb (himp b (List.mem_cons_self b l) hq)
      rw [List.find?_cons_of_neg l hpb] at hfind
      rw [List.find?_cons_of_neg l hqb]
      exact ih hfind (fun x hx => himp x (List.mem_cons_of_mem b hx))

theorem mem_nonzeroIndices {n0 n1 : ℕ} {s : ℕ → ℕ → ℕ} {i j : ℕ} :
    (i, j) ∈ nonzeroIndices n0 n1 s ↔ i < n0 ∧ j < n1 ∧ s i j ≠ 0 := by
  simp only [nonzeroIndices, List.mem_filter, List.mem_flatMap, List.mem_map,
    List.mem_range, decide_eq_true_eq]
  constructor
  · rintro ⟨⟨i2, hi2, j2, hj2, hpair⟩, hnz⟩
    obtain ⟨rfl, rfl⟩ := Prod.mk.injEq .. ▸ hpair
    exact ⟨hi2, hj2, hnz⟩
  · rintro ⟨hi, hj, hnz⟩
    exact ⟨⟨i, hi, j, hj, rfl⟩, hnz⟩

theorem mem_reducedRows_finite {sx sy lx ly : ℚ} {rows : List Row} {r : Row}
    (h : r ∈ reducedRows sx sy lx ly rows) :
    ∃ qx qy : ℚ, r.x = FVal.fin qx ∧ r.y = FVal.fin qy := by
  have hw : inWindow sx sy lx ly r = true := (List.mem_filter.mp h).2
  cases hx : r.x <;> cases hy : r.y <;>
    simp [inWindow, hx, hy] at hw ⊢

theorem distSq_eq_of_xy {lx ly : ℚ} {r r2 : Row}
    (hx : r.x = r2.x) (hy : r.y = r2.y) : distSq lx ly r = distSq lx ly r2 := by
  unfold distSq
  rw [hx, hy]

/-- Characterization of the nonempty-window branch of `update_cell`:
the first row attaining the least distance is also the first row whose
`(x, y)` equals the `(x, y)` of the first minimal row, and its `e` is
the assigned value. -/
theorem update_cell_min_spec (sx sy lx ly : ℚ) (rows : List Row)
    (hne : reducedRows sx sy lx ly rows ≠ []) :
    ∃ m0 : Row,
      (reducedRows sx sy lx ly rows).find?
          (isGlobalMin lx ly (reducedRows sx sy lx ly rows)) = some m0 ∧
      isGlobalMin lx ly (reducedRows sx sy lx ly rows) m0 = true ∧
      (reducedRows sx sy lx ly rows).find?
          (fun r => fvalEqSem r.x m0.x && fvalEqSem r.y m0.y) = some m0 ∧
      update_cell sx sy lx ly rows = m0.e := by
  cases h1 : listMin ((reducedRows sx sy lx ly rows).map (distSq lx ly)) with
  | none =>
    exact absurd (List.map_eq_nil_iff.mp (listMin_eq_none_iff.mp h1)) hne
  | some dmin =>
    have hlb : ∀ r ∈ reducedRows sx sy lx ly rows, dmin ≤ distSq lx ly r :=
      fun r hr => listMin_le h1 (distSq lx ly r) (List.mem_map_of_mem _ hr)
    obtain ⟨r0, hr0, hr0d⟩ := List.mem_map.mp (listMin_mem h1)
    cases hf1 : (reducedRows sx sy lx ly rows).find?
        (fun r => decide (distSq lx ly r = dmin)) with
    | none =>
      exact absurd (hr0d ▸ List.find?_eq_none.mp hf1 r0 hr0) (by simp)
    | some m0 =>
      have hm0R : m0 ∈ reducedRows sx sy lx ly rows :=
        List.mem_of_find?_eq_some hf1
      have hm0d : distSq lx ly m0 = dmin := by
        have := List.find?_some hf1
        simpa using this
      have hgm : isGlobalMin lx ly (reducedRows sx sy lx ly rows) m0 = true := by
        simp only [isGlobalMin, List.all_eq_true, decide_eq_true_eq]
        exact fun r2 hr2 => hm0d ▸ hlb r2 hr2
      have hcongr : (reducedRows sx sy lx ly rows).find?
          (isGlobalMin lx ly (reducedRows sx sy lx ly rows)) =
          (reducedRows sx sy lx ly rows).find?
            (fun r => decide (distSq lx ly r = dmin)) := by
        apply find?_congr_pred
        intro r hr
        apply bool_eq_of_iff
        simp only [isGlobalMin, List.all_eq_true, decide_eq_true_eq]
        constructor
        · intro hall
          exact le_antisymm (hr0d ▸ hall r0 hr0) (hlb r hr)
        · intro heq r2 hr2
          exact heq ▸ hlb r2 hr2
      obtain ⟨qx, qy, hqx, hqy⟩ := mem_reducedRows_finite hm0R
      have hq2 : (fvalEqSem m0.x m0.x && fvalEqSem m0.y m0.y) = true := by
        rw [hqx, hqy]
        simp [fvalEqSem]
      have himp : ∀ r ∈ reducedRows sx sy lx ly rows,
          (fvalEqSem r.x m0.x && fvalEqSem r.y m0.y) = true →
          decide (distSq lx ly r = dmin) = true := by
        intro r hr hxy
        rw [Bool.and_eq_true] at hxy
        obtain ⟨qx2, qy2, hqx2, hqy2⟩ := mem_reducedRows_finite hr
        have hx : r.x = m0.x := by
          rw [hqx2, hqx] at hxy ⊢
          have := hxy.1
          simp only [fvalEqSem, decide_eq_true_eq] at this
          rw [this]
        have hy : r.y = m0.y := by
          rw [hqy2, hqy] at hxy ⊢
          have := hxy.2
          simp only [fvalEqSem, decide_eq_true_eq] at this
          rw [this]
        simp [distSq_eq_of_xy hx hy, hm0d]
      have hfind2 : (reducedRows sx sy lx ly rows).find?
          (fun r => fvalEqSem r.x m0.x && fvalEqSem r.y m0.y) = some m0 :=
        find?_eq_of_imp _ _ _ m0 hf1 hq2 himp
      refine ⟨m0, hcongr.trans hf1, hgm, hfind2, ?_⟩
      simp only [update_cell, h1, head?_filter_eq_find?, hf1, hfind2]

/-! ### Claim theorems -/

/-- C1: for every pmf grid cell whose lambda `(lx, ly)` has at least one
solver-output row inside the open tolerance window, `update_pmf` assigns
to the cell the free-energy `e` of a row attaining the minimum Euclidean
distance from `(lx, ly)` (squared distances compare identically); when
several rows attain the exact minimum, the value taken is that of the
first row in encounter order among the window rows whose `(x, y)` equals
the `(x, y)` of the first minimum-distance row. -/
theorem update_pmf_min_dist_tiebreak (n0 n1 : ℕ) (lam : ℕ × ℕ → ℚ × ℚ)
    (sx sy : ℚ) (rows : List Row) (pmf : ℕ → ℕ → FVal)
    (i j : ℕ) (hi : i < n0) (hj : j < n1) (lx ly : ℚ)
    (hlam : lam (i, j) = (lx, ly))
    (hne : reducedRows sx sy lx ly rows ≠ []) :
    ∃ m0 : Row,
      (reducedRows sx sy lx ly rows).find?
          (isGlobalMin lx ly (reducedRows sx sy lx ly rows)) = some m0 ∧
      isGlobalMin lx ly (reducedRows sx sy lx ly rows) m0 = true ∧
      (reducedRows sx sy lx ly rows).find?
          (fun r => fvalEqSem r.x m0.x && fvalEqSem r.y m0.y) = some m0 ∧
      update_pmf n0 n1 lam sx sy rows pmf i j = m0.e := by
  obtain ⟨m0, h1, h2, h3, h4⟩ := update_cell_min_spec sx sy lx ly rows hne
  refine ⟨m0, h1, h2, h3, ?_⟩
  simp only [update_pmf, if_pos (And.intro hi hj), hlam]
  exact h4

/-- C2: a solver-output row with numeric coordinates is a candidate row
(a member of `reduced`, the rows `update_cell` selects from) for a cell
with lambda `(lx, ly)` iff it is a row of the input whose x differs from
lx by strictly less than the x-axis step and whose y differs from ly by
strictly less than the y-axis step: an open rectangular window tested
per axis, with no Euclidean-radius condition at the inclusion stage. -/
theorem reducedRows_window_iff (sx sy lx ly qx qy : ℚ) (e pro : FVal)
    (rows : List Row) :
    (⟨FVal.fin qx, FVal.fin qy, e, pro⟩ : Row) ∈ reducedRows sx sy lx ly rows ↔
      (⟨FVal.fin qx, FVal.fin qy, e, pro⟩ : Row) ∈ rows ∧
        |qx - lx| < sx ∧ |qy - ly| < sy := by
  simp [reducedRows, List.mem_filter, inWindow]

/-- C3: a cell whose lambda has no solver-output row inside the open
tolerance window is set to positive infinity, and this is non-fatal:
every cell of the grid still receives its own projected value. -/
theorem update_pmf_unmatched_inf (n0 n1 : ℕ) (lam : ℕ × ℕ → ℚ × ℚ)
    (sx sy : ℚ) (rows : List Row) (pmf : ℕ → ℕ → FVal) (i j : ℕ)
    (hi : i < n0) (hj : j < n1)
    (hempty : reducedRows sx sy (lam (i, j)).1 (lam (i, j)).2 rows = []) :
    update_pmf n0 n1 lam sx sy rows pmf i j = FVal.pinf ∧
    ∀ i2 j2, i2 < n0 → j2 < n1 →
      update_pmf n0 n1 lam sx sy rows pmf i2 j2 =
        update_cell sx sy (lam (i2, j2)).1 (lam (i2, j2)).2 rows := by
  constructor
  · simp only [update_pmf, if_pos (And.intro hi hj)]
    simp [update_cell, hempty, listMin]
  · intro i2 j2 hi2 hj2
    simp only [update_pmf, if_pos (And.intro hi2 hj2)]

/-- C4: on a sample grid with at least one nonzero cell, with a
separable monotone index-to-lambda mapping and positive lambda steps,
`get_wham_borders` returns exactly the lambdas of the index-space
bounding-box corners of the nonzero cells, moved outward by two lambda
steps per axis; consequently every nonzero cell's lambda lies strictly
inside the returned rectangle. -/
theorem get_wham_borders_margin (n0 n1 : ℕ) (s : ℕ → ℕ → ℕ)
    (fx fy : ℕ → ℚ) (sx sy : ℚ)
    (hfx : Monotone fx) (hfy : Monotone fy) (hsx : 0 < sx) (hsy : 0 < sy)
    (i0 j0 : ℕ) (hi0 : i0 < n0) (hj0 : j0 < n1) (h0 : s i0 j0 ≠ 0) :
    ∃ imin imax jmin jmax : ℕ,
      (∃ j, imin < n0 ∧ j < n1 ∧ s imin j ≠ 0) ∧
      (∃ j, imax < n0 ∧ j < n1 ∧ s imax j ≠ 0) ∧
      (∃ i, i < n0 ∧ jmin < n1 ∧ s i jmin ≠ 0) ∧
      (∃ i, i < n0 ∧ jmax < n1 ∧ s i jmax ≠ 0) ∧
      (∀ i j, i < n0 → j < n1 → s i j ≠ 0 →
        imin ≤ i ∧ i ≤ imax ∧ jmin ≤ j ∧ j ≤ jmax) ∧
      get_wham_borders n0 n1 s (fun p => (fx p.1, fy p.2)) sx sy =
        some (fx imin - 2 * sx, fy jmin - 2 * sy,
          fx imax + 2 * sx, fy jmax + 2 * sy) ∧
      (∀ i j, i < n0 → j < n1 → s i j ≠ 0 →
        (fx imin - 2 * sx < fx i ∧ fx i < fx imax + 2 * sx) ∧
        (fy jmin - 2 * sy < fy j ∧ fy j < fy jmax + 2 * sy)) := by
  cases hnzl : nonzeroIndices n0 n1 s with
  | nil =>
    have hm : (i0, j0) ∈ nonzeroIndices n0 n1 s :=
      mem_nonzeroIndices.mpr ⟨hi0, hj0, h0⟩
    rw [hnzl] at hm
    cases hm
  | cons p ps =>
    obtain ⟨pi, pj⟩ := p
    have hfst : ∀ i j, i < n0 → j < n1 → s i j ≠ 0 →
        (ps.map Prod.fst).foldl min pi ≤ i ∧ i ≤ (ps.map Prod.fst).foldl max pi := by
      intro i j hi hj hs
      have hm : (i, j) ∈ (pi, pj) :: ps := hnzl ▸ mem_nonzeroIndices.mpr ⟨hi, hj, hs⟩
      rcases List.mem_cons.mp hm with h | h
      · have h1 : i = pi ∧ j = pj := by simpa using h
        obtain ⟨rfl, -⟩ := h1
        exact ⟨foldl_min_le_init _ _, foldl_max_init_le _ _⟩
      · have hmm : i ∈ ps.map Prod.fst := List.mem_map_of_mem Prod.fst h
        exact ⟨foldl_min_le_mem _ _ _ hmm, foldl_max_mem_le _ _ _ hmm⟩
    have hsnd : ∀ i j, i < n0 → j < n1 → s i j ≠ 0 →
        (ps.map Prod.snd).foldl min pj ≤ j ∧ j ≤ (ps.map Prod.snd).foldl max pj := by
      intro i j hi hj hs
      have hm : (i, j) ∈ (pi, pj) :: ps := hnzl ▸ mem_nonzeroIndices.mpr ⟨hi, hj, hs⟩
      rcases List.mem_cons.mp hm with h | h
      · have h1 : i = pi ∧ j = pj := by simpa using h
        obtain ⟨-, rfl⟩ := h1
        exact ⟨foldl_min_le_init _ _, foldl_max_init_le _ _⟩
      · have hmm : j ∈ ps.map Prod.snd := List.mem_map_of_mem Prod.snd h
        exact ⟨foldl_min_le_mem _ _ _ hmm, foldl_max_mem_le _ _ _ hmm⟩
    have hhead : (pi, pj) ∈ nonzeroIndices n0 n1 s := by
      rw [hnzl]
      exact List.mem_cons_self _ _
    have hatt : ∀ v : ℕ, (v = pi ∨ v ∈ ps.map Prod.fst) →
        ∃ j, v < n0 ∧ j < n1 ∧ s v j ≠ 0 := by
      intro v hv
      rcases hv with rfl | hv
      · obtain ⟨ha, hb2, hc⟩ := mem_nonzeroIndices.mp hhead
        exact ⟨pj, ha, hb2, hc⟩
      · obtain ⟨q, hq, hq1⟩ := List.mem_map.mp hv
        have hmq : q ∈ nonzeroIndices n0 n1 s := by
          rw [hnzl]
          exact List.mem_cons_of_mem _ hq
        obtain ⟨qi, qj⟩ := q
        obtain ⟨ha, hb2, hc⟩ := mem_nonzeroIndices.mp hmq
        simp only at hq1
        subst hq1
        exact ⟨qj, ha, hb2, hc⟩
    have hatty : ∀ v : ℕ, (v = pj ∨ v ∈ ps.map Prod.snd) →
        ∃ i, i < n0 ∧ v < n1 ∧ s i v ≠ 0 := by
      intro v hv
      rcases hv with rfl | hv
      · obtain ⟨ha, hb2, hc⟩ := mem_nonzeroIndices.mp hhead
        exact ⟨pi, ha, hb2, hc⟩
      · obtain ⟨q, hq, hq1⟩ := List.mem_map.mp hv
        have hmq : q ∈ nonzeroIndices n0 n1 s := by
          rw [hnzl]
          exact List.mem_cons_of_mem _ hq
        obtain ⟨qi, qj⟩ := q
        obtain ⟨ha, hb2, hc⟩ := mem_nonzeroIndices.mp hmq
        simp only at hq1
        subst hq1
        exact ⟨qi, ha, hb2, hc⟩
    refine ⟨(ps.map Prod.fst).foldl min pi, (ps.map Prod.fst).foldl max pi,
      (ps.map Prod.snd).foldl min pj, (ps.map Prod.snd).foldl max pj,
      ?_, ?_, ?_, ?_, ?_, ?_, ?_⟩
    · exact hatt _ (by
        rcases foldl_min_eq_init_or_mem (ps.map Prod.fst) pi with h | h
        · exact Or.inl h
        · exact Or.inr h)
    · exact hatt _ (by
        rcases foldl_max_eq_init_or_mem (ps.map Prod.fst) pi with h | h
        · exact Or.inl h
        · exact Or.inr h)
    · exact hatty _ (by
        rcases foldl_min_eq_init_or_mem (ps.map Prod.snd) pj with h | h
        · exact Or.inl h
        · exact Or.inr h)
    · exact hatty _ (by
        rcases foldl_max_eq_init_or_mem (ps.map Prod.snd) pj with h | h
        · exact Or.inl h
        · exact Or.inr h)
    · intro i j hi hj hs
      obtain ⟨ha, hb2⟩ := hfst i j hi hj hs
      obtain ⟨hc, hd⟩ := hsnd i j hi hj hs
      exact ⟨ha, hb2, hc, hd⟩
    · simp only [get_wham_borders, hnzl]
    · intro i j hi hj hs
      obtain ⟨ha, hb2⟩ := hfst i j hi hj hs
      obtain ⟨hc, hd⟩ := hsnd i j hi hj hs
      have e1 := hfx ha
      have e2 := hfx hb2
      have e3 := hfy hc
      have e4 := hfy hd
      exact ⟨⟨by linarith, by linarith⟩, ⟨by linarith, by linarith⟩⟩

/-- C5: on a sample grid with no nonzero cell at all, `get_wham_borders`
fails with the empty-data error (modelled by `none`, the `ValueError`
numpy raises on an empty reduction) instead of returning a rectangle. -/
theorem get_wham_borders_empty_fails (n0 n1 : ℕ) (s : ℕ → ℕ → ℕ)
    (lam : ℕ × ℕ → ℚ × ℚ) (sx sy : ℚ)
    (h : ∀ i j, i < n0 → j < n1 → s i j = 0) :
    get_wham_borders n0 n1 s lam sx sy = none := by
  have hnz : nonzeroIndices n0 n1 s = [] := by
    rw [List.eq_nil_iff_forall_not_mem]
    intro p hp
    obtain ⟨pi2, pj2⟩ := p
    obtain ⟨h1, h2, h3⟩ := mem_nonzeroIndices.mp hp
    exact h3 (h pi2 pj2 h1 h2)
  simp [get_wham_borders, hnz]

/-- C6: the missing-file skip of `create_metadata_file` is gated by the
verbosity flag, contrary to the claim.  With `verbose = false` and a
missing data file the manifest line is still written; with
`verbose = true` the same window is skipped.  The skip of a missing file
therefore does depend on the verbosity setting. -/
theorem create_metadata_file_missing_skip_depends_on_verbose :
    create_metadata_file false (fun _ => false) 1 1 [(1, 2)] =
      [⟨1, 2, 1, 1⟩] ∧
    create_metadata_file true (fun _ => false) 1 1 [(1, 2)] = [] := by
  constructor <;> rfl

/-- C7 counterexample: a finite-energy row whose x column is positive
infinity is kept by `load_wham_pmf`, but its x value is rewritten to NaN
(the replacement of line 106 touches every column), so the four column
values of the kept row are not preserved unchanged. -/
theorem load_wham_pmf_preserve_counterexample :
    load_wham_pmf [⟨FVal.pinf, FVal.fin 0, FVal.fin 1, FVal.fin 0⟩] =
      [⟨FVal.nan, FVal.fin 0, FVal.fin 1, FVal.fin 0⟩] ∧
    load_wham_pmf [⟨FVal.pinf, FVal.fin 0, FVal.fin 1, FVal.fin 0⟩] ≠
      [⟨FVal.pinf, FVal.fin 0, FVal.fin 1, FVal.fin 0⟩] := by
  constructor
  · rfl
  · intro h
    simpa [load_wham_pmf, replaceInfRow, replaceInfV] using congrArg List.head? h

/-- C7 (amended): `load_wham_pmf` keeps exactly the rows whose energy
column `e` is finite (rows with infinite or NaN `e` are dropped),
preserving their order; and provided no kept row carries an infinity in
its x, y or pro column, all four column values are returned unchanged.
(In general an infinity in x, y or pro of a kept row is rewritten to
NaN — see the counterexample.) -/
theorem load_wham_pmf_amended (rows : List Row)
    (h : ∀ r ∈ rows, isInfV r.x = false ∧ isInfV r.y = false ∧ isInfV r.pro = false) :
    load_wham_pmf rows = rows.filter (fun r => isFiniteV r.e) := by
  induction rows with
  | nil => rfl
  | cons r rs ih =>
    have hr := h r (List.mem_cons_self r rs)
    have hrs := ih (fun x hx => h x (List.mem_cons_of_mem r hx))
    obtain ⟨hx, hy, hp⟩ := hr
    have hxid : replaceInfV r.x = r.x := by
      cases hv : r.x <;> simp_all [replaceInfV, isInfV]
    have hyid : replaceInfV r.y = r.y := by
      cases hv : r.y <;> simp_all [replaceInfV, isInfV]
    have hpid : replaceInfV r.pro = r.pro := by
      cases hv : r.pro <;> simp_all [replaceInfV, isInfV]
    simp only [load_wham_pmf, List.map_cons, List.filter_cons] at hrs ⊢
    simp only [decide_not] at hrs
    cases he : r.e with
    | fin q =>
      have heid : replaceInfV r.e = r.e := by rw [he]; rfl
      have hrow : replaceInfRow r = r := by
        simp only [replaceInfRow, hxid, hyid, heid, hpid]
      simp [hrow, he, isFiniteV, hrs]
    | pinf =>
      have hce : (replaceInfRow r).e = FVal.nan := by
        simp [replaceInfRow, replaceInfV, he]
      simp [hce, he, isFiniteV, hrs]
    | ninf =>
      have hce : (replaceInfRow r).e = FVal.nan := by
        simp [replaceInfRow, replaceInfV, he]
      simp [hce, he, isFiniteV, hrs]
    | nan =>
      have hce : (replaceInfRow r).e = FVal.nan := by
        simp [replaceInfRow, replaceInfV, he]
      simp [hce, he, isFiniteV, hrs]

/-- C8: if the output file already exists `run_wham2d` performs no
external invocation and returns success (for any file system containing
the path); hence when a first invocation on a file system without the
output file produces it, the external call is executed exactly once and
the second invocation is a no-op returning success. -/
theorem run_wham2d_cached_idempotent (solver : List String → ℤ × List String)
    (n0 n1 : ℕ) (s : ℕ → ℕ → ℕ) (lam : ℕ × ℕ → ℚ × ℚ) (sx sy : ℚ)
    (output_path : String) (fs : List String) (calls : ℕ)
    (h1 : output_path ∉ fs)
    (h2 : output_path ∈ (run_wham2d solver n0 n1 s lam sx sy output_path fs calls).fs) :
    (∀ g m, output_path ∈ g →
        run_wham2d solver n0 n1 s lam sx sy output_path g m =
          ⟨RunResult.success, g, m⟩) ∧
    (run_wham2d solver n0 n1 s lam sx sy output_path fs calls).solverCalls =
      calls + 1 ∧
    run_wham2d solver n0 n1 s lam sx sy output_path
        (run_wham2d solver n0 n1 s lam sx sy output_path fs calls).fs
        (run_wham2d solver n0 n1 s lam sx sy output_path fs calls).solverCalls =
      ⟨RunResult.success,
        (run_wham2d solver n0 n1 s lam sx sy output_path fs calls).fs,
        (run_wham2d solver n0 n1 s lam sx sy output_path fs calls).solverCalls⟩ := by
  have hcache : ∀ g m, output_path ∈ g →
      run_wham2d solver n0 n1 s lam sx sy output_path g m =
        ⟨RunResult.success, g, m⟩ := by
    intro g m hg
    simp [run_wham2d, hg]
  have hcalls :
      (run_wham2d solver n0 n1 s lam sx sy output_path fs calls).solverCalls =
        calls + 1 := by
    cases hb : get_wham_borders n0 n1 s lam sx sy with
    | none =>
      simp only [run_wham2d, if_neg h1, hb] at h2
      exact absurd h2 h1
    | some b =>
      simp only [run_wham2d, if_neg h1, hb]
      by_cases hc : (solver fs).1 ≠ 0 <;> simp [hc]
  exact ⟨hcache, hcalls, hcache _ _ h2⟩

/-- C9: a nonzero exit status of the external solver is fatal:
`run_wham2d` reports that exit code, the solver is launched exactly once
(no retry), and `calculate_new_pmf` terminates with that code before any
output loading or grid projection (its result carries no updated grid). -/
theorem run_wham2d_nonzero_exit_fatal (verbose : Bool)
    (colvarExists : ℚ × ℚ → Bool) (fcx fcy : ℚ) (sampled : List (ℚ × ℚ))
    (solver : List String → ℤ × List String) (content : String → List Row)
    (n0 n1 : ℕ) (s : ℕ → ℕ → ℕ) (lam : ℕ × ℕ → ℚ × ℚ) (sx sy : ℚ)
    (output_path : String) (fs : List String) (calls : ℕ)
    (pmf : ℕ → ℕ → FVal)
    (h1 : output_path ∉ fs)
    (hb : get_wham_borders n0 n1 s lam sx sy ≠ none)
    (c : ℤ) (fs2 : List String) (hs : solver fs = (c, fs2)) (hc : c ≠ 0) :
    run_wham2d solver n0 n1 s lam sx sy output_path fs calls =
      ⟨RunResult.fatal c, fs2, calls + 1⟩ ∧
    calculate_new_pmf verbose colvarExists fcx fcy sampled solver content
        n0 n1 s lam sx sy output_path fs calls pmf =
      (PipeResult.fatalExit c, fs2, calls + 1) := by
  cases hbb : get_wham_borders n0 n1 s lam sx sy with
  | none => exact absurd hbb hb
  | some b =>
    have hrun : run_wham2d solver n0 n1 s lam sx sy output_path fs calls =
        ⟨RunResult.fatal c, fs2, calls + 1⟩ := by
      simp [run_wham2d, if_neg h1, hbb, hs, hc]
    refine ⟨hrun, ?_⟩
    simp [calculate_new_pmf, hrun]

/-- C10: when the solver output file already exists, `run_wham2d`
returns success at once — before `get_wham_borders` is reached — so
`calculate_new_pmf` completes the cached path for any sample grid,
including an all-zero one, and never surfaces the empty-data error in
that case. -/
theorem calculate_new_pmf_cached_skips_borders (verbose : Bool)
    (colvarExists : ℚ × ℚ → Bool) (fcx fcy : ℚ) (sampled : List (ℚ × ℚ))
    (solver : List String → ℤ × List String) (content : String → List Row)
    (n0 n1 : ℕ) (s : ℕ → ℕ → ℕ) (lam : ℕ × ℕ → ℚ × ℚ) (sx sy : ℚ)
    (output_path : String) (fs : List String) (calls : ℕ)
    (pmf : ℕ → ℕ → FVal)
    (h : output_path ∈ fs) :
    run_wham2d solver n0 n1 s lam sx sy output_path fs calls =
      ⟨RunResult.success, fs, calls⟩ ∧
    calculate_new_pmf verbose colvarExists fcx fcy sampled solver content
        n0 n1 s lam sx sy output_path fs calls pmf =
      (PipeResult.ok
          (update_pmf n0 n1 lam sx sy (load_wham_pmf (content output_path)) pmf),
        fs, calls) ∧
    (calculate_new_pmf verbose colvarExists fcx fcy sampled solver content
        n0 n1 s lam sx sy output_path fs calls pmf).1 ≠
      PipeResult.emptyDataError := by
  have hrun : run_wham2d solver n0 n1 s lam sx sy output_path fs calls =
      ⟨RunResult.success, fs, calls⟩ := by
    simp [run_wham2d, h]
  have hcalc : calculate_new_pmf verbose colvarExists fcx fcy sampled solver content
      n0 n1 s lam sx sy output_path fs calls pmf =
      (PipeResult.ok
          (update_pmf n0 n1 lam sx sy (load_wham_pmf (content output_path)) pmf),
        fs, calls) := by
    simp [calculate_new_pmf, hrun, h]
  refine ⟨hrun, hcalc, ?_⟩
  rw [hcalc]
  simp

/-! ### Witnesses -/

/-- Witness for C1: a cell at lambda `(0, 0)` with steps `(1, 1)` and two
window rows at the same minimal distance `0` (an exact tie on
coordinates), where the value taken is that of the first row. -/
theorem update_pmf_min_dist_tiebreak_witness :
    reducedRows 1 1 0 0
        [⟨FVal.fin 0, FVal.fin 0, FVal.fin 5, FVal.fin 0⟩,
          ⟨FVal.fin 0, FVal.fin 0, FVal.fin 7, FVal.fin 0⟩] ≠ [] ∧
    (∃ m0 : Row,
      (reducedRows 1 1 0 0
          [⟨FVal.fin 0, FVal.fin 0, FVal.fin 5, FVal.fin 0⟩,
            ⟨FVal.fin 0, FVal.fin 0, FVal.fin 7, FVal.fin 0⟩]).find?
          (isGlobalMin 0 0 (reducedRows 1 1 0 0
            [⟨FVal.fin 0, FVal.fin 0, FVal.fin 5, FVal.fin 0⟩,
              ⟨FVal.fin 0, FVal.fin 0, FVal.fin 7, FVal.fin 0⟩])) = some m0 ∧
      isGlobalMin 0 0 (reducedRows 1 1 0 0
          [⟨FVal.fin 0, FVal.fin 0, FVal.fin 5, FVal.fin 0⟩,
            ⟨FVal.fin 0, FVal.fin 0, FVal.fin 7, FVal.fin 0⟩]) m0 = true ∧
      (reducedRows 1 1 0 0
          [⟨FVal.fin 0, FVal.fin 0, FVal.fin 5, FVal.fin 0⟩,
            ⟨FVal.fin 0, FVal.fin 0, FVal.fin 7, FVal.fin 0⟩]).find?
          (fun r => fvalEqSem r.x m0.x && fvalEqSem r.y m0.y) = some m0 ∧
      update_pmf 1 1 (fun _ => (0, 0)) 1 1
          [⟨FVal.fin 0, FVal.fin 0, FVal.fin 5, FVal.fin 0⟩,
            ⟨FVal.fin 0, FVal.fin 0, FVal.fin 7, FVal.fin 0⟩]
          (fun _ _ => FVal.pinf) 0 0 = m0.e) :=
  ⟨by
    norm_num [reducedRows, inWindow]
    exact List.cons_ne_nil _ _,
    update_pmf_min_dist_tiebreak 1 1 (fun _ => (0, 0)) 1 1
      [⟨FVal.fin 0, FVal.fin 0, FVal.fin 5, FVal.fin 0⟩,
        ⟨FVal.fin 0, FVal.fin 0, FVal.fin 7, FVal.fin 0⟩]
      (fun _ _ => FVal.pinf) 0 0 (by norm_num) (by norm_num) 0 0 rfl
      (by
        norm_num [reducedRows, inWindow]
        exact List.cons_ne_nil _ _)⟩

/-- Witness for C3: a 2-by-1 grid whose cell `(0, 0)` at lambda `(0, 0)`
has no window row (the only output row sits at `(10, 0)`) while cell
`(1, 0)` at lambda `(10, 0)` matches that row. -/
theorem update_pmf_unmatched_inf_witness :
    reducedRows 1 1
        ((fun p : ℕ × ℕ => (if p.1 = 0 then (0 : ℚ) else 10, (0 : ℚ))) (0, 0)).1
        ((fun p : ℕ × ℕ => (if p.1 = 0 then (0 : ℚ) else 10, (0 : ℚ))) (0, 0)).2
        [⟨FVal.fin 10, FVal.fin 0, FVal.fin 3, FVal.fin 0⟩] = [] ∧
    (update_pmf 2 1 (fun p : ℕ × ℕ => (if p.1 = 0 then (0 : ℚ) else 10, (0 : ℚ))) 1 1
        [⟨FVal.fin 10, FVal.fin 0, FVal.fin 3, FVal.fin 0⟩]
        (fun _ _ => FVal.nan) 0 0 = FVal.pinf ∧
      ∀ i2 j2, i2 < 2 → j2 < 1 →
        update_pmf 2 1 (fun p : ℕ × ℕ => (if p.1 = 0 then (0 : ℚ) else 10, (0 : ℚ))) 1 1
            [⟨FVal.fin 10, FVal.fin 0, FVal.fin 3, FVal.fin 0⟩]
            (fun _ _ => FVal.nan) i2 j2 =
          update_cell 1 1
            ((fun p : ℕ × ℕ => (if p.1 = 0 then (0 : ℚ) else 10, (0 : ℚ))) (i2, j2)).1
            ((fun p : ℕ × ℕ => (if p.1 = 0 then (0 : ℚ) else 10, (0 : ℚ))) (i2, j2)).2
            [⟨FVal.fin 10, FVal.fin 0, FVal.fin 3, FVal.fin 0⟩]) :=
  ⟨by norm_num [reducedRows, inWindow],
    update_pmf_unmatched_inf 2 1
      (fun p : ℕ × ℕ => (if p.1 = 0 then (0 : ℚ) else 10, (0 : ℚ))) 1 1
      [⟨FVal.fin 10, FVal.fin 0, FVal.fin 3, FVal.fin 0⟩]
      (fun _ _ => FVal.nan) 0 0 (by norm_num) (by norm_num)
      (by norm_num [reducedRows, inWindow])⟩

/-- Witness for C4: the spec's end-to-end scenario, a 3-by-3 sample grid
nonzero only at index `(1, 1)`, identity-cast lambda mapping and unit
steps. -/
theorem get_wham_borders_margin_witness :
    Monotone (fun i : ℕ => (i : ℚ)) ∧ (0 : ℚ) < 1 ∧
    (fun i j : ℕ => if i = 1 ∧ j = 1 then 1 else 0) 1 1 ≠ 0 ∧
    (∃ imin imax jmin jmax : ℕ,
      (∃ j, imin < 3 ∧ j < 3 ∧
        (fun i j : ℕ => if i = 1 ∧ j = 1 then 1 else 0) imin j ≠ 0) ∧
      (∃ j, imax < 3 ∧ j < 3 ∧
        (fun i j : ℕ => if i = 1 ∧ j = 1 then 1 else 0) imax j ≠ 0) ∧
      (∃ i, i < 3 ∧ jmin < 3 ∧
        (fun i j : ℕ => if i = 1 ∧ j = 1 then 1 else 0) i jmin ≠ 0) ∧
      (∃ i, i < 3 ∧ jmax < 3 ∧
        (fun i j : ℕ => if i = 1 ∧ j = 1 then 1 else 0) i jmax ≠ 0) ∧
      (∀ i j, i < 3 → j < 3 →
        (fun i j : ℕ => if i = 1 ∧ j = 1 then 1 else 0) i j ≠ 0 →
        imin ≤ i ∧ i ≤ imax ∧ jmin ≤ j ∧ j ≤ jmax) ∧
      get_wham_borders 3 3 (fun i j : ℕ => if i = 1 ∧ j = 1 then 1 else 0)
          (fun p => ((fun i : ℕ => (i : ℚ)) p.1, (fun i : ℕ => (i : ℚ)) p.2)) 1 1 =
        some ((fun i : ℕ => (i : ℚ)) imin - 2 * 1, (fun i : ℕ => (i : ℚ)) jmin - 2 * 1,
          (fun i : ℕ => (i : ℚ)) imax + 2 * 1, (fun i : ℕ => (i : ℚ)) jmax + 2 * 1) ∧
      (∀ i j, i < 3 → j < 3 →
        (fun i j : ℕ => if i = 1 ∧ j = 1 then 1 else 0) i j ≠ 0 →
        ((fun i : ℕ => (i : ℚ)) imin - 2 * 1 < (fun i : ℕ => (i : ℚ)) i ∧
          (fun i : ℕ => (i : ℚ)) i < (fun i : ℕ => (i : ℚ)) imax + 2 * 1) ∧
        ((fun i : ℕ => (i : ℚ)) jmin - 2 * 1 < (fun i : ℕ => (i : ℚ)) j ∧
          (fun i : ℕ => (i : ℚ)) j < (fun i : ℕ => (i : ℚ)) jmax + 2 * 1))) :=
  ⟨Nat.mono_cast, by norm_num, by decide,
    get_wham_borders_margin 3 3 (fun i j : ℕ => if i = 1 ∧ j = 1 then 1 else 0)
      (fun i : ℕ => (i : ℚ)) (fun i : ℕ => (i : ℚ)) 1 1
      Nat.mono_cast Nat.mono_cast (by norm_num) (by norm_num)
      1 1 (by norm_num) (by norm_num) (by decide)⟩

/-- Witness for C5: a 2-by-2 all-zero sample grid. -/
theorem get_wham_borders_empty_fails_witness :
    (∀ i j : ℕ, i < 2 → j < 2 → (fun _ _ : ℕ => 0) i j = 0) ∧
    get_wham_borders 2 2 (fun _ _ => 0) (fun _ => (0, 0)) 1 1 = none :=
  ⟨fun _ _ _ _ => rfl,
    get_wham_borders_empty_fails 2 2 (fun _ _ => 0) (fun _ => (0, 0)) 1 1
      (fun _ _ _ _ => rfl)⟩

/-- Witness for C7 (amended): the spec's own loader example, rows
`(0.1, 0.2, inf, 0.0)` and `(0.1, 0.3, -1.5, 0.2)`; only the second,
finite-energy row survives, unchanged. -/
theorem load_wham_pmf_amended_witness :
    (∀ r ∈ [(⟨FVal.fin (1/10), FVal.fin (1/5), FVal.pinf, FVal.fin 0⟩ : Row),
        ⟨FVal.fin (1/10), FVal.fin (3/10), FVal.fin (-3/2), FVal.fin (1/5)⟩],
      isInfV r.x = false ∧ isInfV r.y = false ∧ isInfV r.pro = false) ∧
    load_wham_pmf [⟨FVal.fin (1/10), FVal.fin (1/5), FVal.pinf, FVal.fin 0⟩,
        ⟨FVal.fin (1/10), FVal.fin (3/10), FVal.fin (-3/2), FVal.fin (1/5)⟩] =
      [(⟨FVal.fin (1/10), FVal.fin (1/5), FVal.pinf, FVal.fin 0⟩ : Row),
        ⟨FVal.fin (1/10), FVal.fin (3/10), FVal.fin (-3/2), FVal.fin (1/5)⟩].filter
        (fun r => isFiniteV r.e) :=
  ⟨by decide,
    load_wham_pmf_amended
      [⟨FVal.fin (1/10), FVal.fin (1/5), FVal.pinf, FVal.fin 0⟩,
        ⟨FVal.fin (1/10), FVal.fin (3/10), FVal.fin (-3/2), FVal.fin (1/5)⟩]
      (by decide)⟩

/-- Witness for C8: first call on an empty file system creates `out`
with exit code 0; the second call is a cached no-op. -/
theorem run_wham2d_cached_idempotent_witness :
    "out" ∉ ([] : List String) ∧
    "out" ∈ (run_wham2d (fun g => (0, "out" :: g)) 1 1 (fun _ _ => 1)
        (fun _ => (0, 0)) 1 1 "out" [] 0).fs ∧
    ((∀ g m, "out" ∈ g →
        run_wham2d (fun g => (0, "out" :: g)) 1 1 (fun _ _ => 1)
            (fun _ => (0, 0)) 1 1 "out" g m = ⟨RunResult.success, g, m⟩) ∧
      (run_wham2d (fun g => (0, "out" :: g)) 1 1 (fun _ _ => 1)
          (fun _ => (0, 0)) 1 1 "out" [] 0).solverCalls = 0 + 1 ∧
      run_wham2d (fun g => (0, "out" :: g)) 1 1 (fun _ _ => 1)
          (fun _ => (0, 0)) 1 1 "out"
          (run_wham2d (fun g => (0, "out" :: g)) 1 1 (fun _ _ => 1)
            (fun _ => (0, 0)) 1 1 "out" [] 0).fs
          (run_wham2d (fun g => (0, "out" :: g)) 1 1 (fun _ _ => 1)
            (fun _ => (0, 0)) 1 1 "out" [] 0).solverCalls =
        ⟨RunResult.success,
          (run_wham2d (fun g => (0, "out" :: g)) 1 1 (fun _ _ => 1)
            (fun _ => (0, 0)) 1 1 "out" [] 0).fs,
          (run_wham2d (fun g => (0, "out" :: g)) 1 1 (fun _ _ => 1)
            (fun _ => (0, 0)) 1 1 "out" [] 0).solverCalls⟩) :=
  ⟨by decide,
    by simp [run_wham2d, get_wham_borders, nonzeroIndices, List.range_succ],
    run_wham2d_cached_idempotent (fun g => (0, "out" :: g)) 1 1 (fun _ _ => 1)
      (fun _ => (0, 0)) 1 1 "out" [] 0 (by decide)
      (by simp [run_wham2d, get_wham_borders, nonzeroIndices, List.range_succ])⟩

/-- Witness for C9: a solver that exits with code 2 on a one-cell
sampled grid; the pipeline ends with that code after one launch. -/
theorem run_wham2d_nonzero_exit_fatal_witness :
    "out" ∉ ([] : List String) ∧
    get_wham_borders 1 1 (fun _ _ => 1) (fun _ => (0, 0)) 1 1 ≠ none ∧
    (2 : ℤ) ≠ 0 ∧
    (run_wham2d (fun g => (2, g)) 1 1 (fun _ _ => 1) (fun _ => (0, 0)) 1 1
        "out" [] 0 = ⟨RunResult.fatal 2, [], 0 + 1⟩ ∧
      calculate_new_pmf false (fun _ => true) 1 1 [] (fun g => (2, g))
          (fun _ => []) 1 1 (fun _ _ => 1) (fun _ => (0, 0)) 1 1
          "out" [] 0 (fun _ _ => FVal.nan) =
        (PipeResult.fatalExit 2, [], 0 + 1)) :=
  ⟨by decide,
    by simp [get_wham_borders, nonzeroIndices, List.range_succ],
    by decide,
    run_wham2d_nonzero_exit_fatal false (fun _ => true) 1 1 [] (fun g => (2, g))
      (fun _ => []) 1 1 (fun _ _ => 1) (fun _ => (0, 0)) 1 1 "out" [] 0
      (fun _ _ => FVal.nan) (by decide)
      (by simp [get_wham_borders, nonzeroIndices, List.range_succ])
      2 [] rfl (by decide)⟩

/-- Witness for C10: the output file exists and the sample grid is
all-zero; the cached path completes and no empty-data error occurs. -/
theorem calculate_new_pmf_cached_skips_borders_witness :
    "out" ∈ ["out"] ∧
    (run_wham2d (fun g => (0, g)) 1 1 (fun _ _ => 0) (fun _ => (0, 0)) 1 1
        "out" ["out"] 0 = ⟨RunResult.success, ["out"], 0⟩ ∧
      calculate_new_pmf false (fun _ => true) 1 1 [] (fun g => (0, g))
          (fun _ => []) 1 1 (fun _ _ => 0) (fun _ => (0, 0)) 1 1
          "out" ["out"] 0 (fun _ _ => FVal.nan) =
        (PipeResult.ok (update_pmf 1 1 (fun _ => (0, 0)) 1 1
            (load_wham_pmf ((fun _ : String => ([] : List Row)) "out"))
            (fun _ _ => FVal.nan)),
          ["out"], 0) ∧
      (calculate_new_pmf false (fun _ => true) 1 1 [] (fun g => (0, g))
          (fun _ => []) 1 1 (fun _ _ => 0) (fun _ => (0, 0)) 1 1
          "out" ["out"] 0 (fun _ _ => FVal.nan)).1 ≠
        PipeResult.emptyDataError) :=
  ⟨by decide,
    calculate_new_pmf_cached_skips_borders false (fun _ => true) 1 1 []
      (fun g => (0, g)) (fun _ => []) 1 1 (fun _ _ => 0) (fun _ => (0, 0)) 1 1
      "out" ["out"] 0 (fun _ _ => FVal.nan) (by decide)⟩

end Wham2D
